import Mathlib

/-!
Verification of the meal-buddy weekly-plan page logic
(`src/app/plan/page.tsx`): grocery-list deduplication
(`dedupeIngredients`), Monday-start week normalization
(`startOfWeekMonday`, `addDays`, `addWeeks`), the week-grid cell
projection (`cellItems` and the entry-label fallback), and the reset
behaviour of the grocery checked set.

Modelling conventions (shallow embedding of the TypeScript source):
* a JavaScript string is a `List Char` (`JStr`); `String.prototype.trim`
  is `jsTrim` (removing the whitespace characters relevant here from both
  ends) and `toLowerCase` is `jsToLower` (ASCII case folding, which agrees
  with JavaScript on the ASCII inputs the application handles);
* a JavaScript `Map` built by insertion is an association list in
  insertion order (`mapGet` is `Map.get`, appending is `Map.set` of a
  fresh key);
* `Array.prototype.sort` with the `localeCompare` comparator is modelled
  as a comparison sort (`List.insertionSort`) under the lexicographic
  order on `List Char`; since the sorted values are pairwise distinct and
  the order is linear, any comparison sort produces this same output;
* a JavaScript `Date` is a calendar-day number (days since 1970-01-01,
  which was a Thursday) together with the milliseconds elapsed in that
  day (`JSDate`); `getDay` (0 = Sunday .. 6 = Saturday), `setHours(0,0,0,0)`
  and `setDate` act on those two fields exactly as the calendar does in a
  fixed-offset time zone.
-/

/-- A JavaScript string, as a list of characters. -/
abbrev JStr := List Char

/-- Coerce a Lean string literal to the `JStr` model. -/
def js (s : String) : JStr := s.data

/-- The whitespace characters stripped by `String.prototype.trim`
(ASCII whitespace plus no-break space, line/paragraph separator, BOM). -/
def jsWS (c : Char) : Bool :=
  c = ' ' || c = '\t' || c = '\n' || c = '\r' ||
  c = '\x0b' || c = '\x0c' || c = '\u00a0' ||
  c = '\u2028' || c = '\u2029' || c = '\ufeff'

/-- Model of `String.prototype.trim`: drop whitespace from both ends. -/
def jsTrim (s : JStr) : JStr :=
  ((s.dropWhile jsWS).reverse.dropWhile jsWS).reverse

/-- Model of `String.prototype.toLowerCase` (ASCII case folding). -/
def jsToLower (s : JStr) : JStr := s.map Char.toLower

/-- The deduplication key used by `dedupeIngredients`:
`l.trim().toLowerCase()` (page.tsx line 48). -/
def dedupeKey (l : JStr) : JStr := jsToLower (jsTrim l)

/-- Model of `Map.get` on an insertion-ordered association list. -/
def mapGet : List (JStr × JStr) → JStr → Option JStr
  | [], _ => none
  | p :: m, key => if p.1 = key then some p.2 else mapGet m key

/-- The body of the `for (const l of lines)` loop of `dedupeIngredients`
(page.tsx lines 47-51): skip lines whose key is empty (`if (!key)
continue`), and `map.set(key, l.trim())` only when `!map.has(key)`
(appending, since the key is fresh). -/
def insertLine (m : List (JStr × JStr)) (l : JStr) : List (JStr × JStr) :=
  let key := dedupeKey l
  if key = [] then m
  else if (mapGet m key).isSome then m
  else m ++ [(key, jsTrim l)]

/-- The `Map` built by `dedupeIngredients` over its input lines. -/
def dedupePairs (lines : List JStr) : List (JStr × JStr) :=
  lines.foldl insertLine []

/-- Model of `dedupeIngredients` (page.tsx lines 45-53):
`Array.from(map.values()).sort((a, b) => a.localeCompare(b))`. -/
def dedupeIngredients (lines : List JStr) : List JStr :=
  List.insertionSort (· ≤ ·) ((dedupePairs lines).map Prod.snd)

/-- A recipe row as selected by `openGroceryList`
(`id,title,ingredients`, with `ingredients: string[] | null`). -/
structure Recipe where
  id : JStr
  title : JStr
  ingredients : Option (List JStr)
deriving DecidableEq

/-- The flattening loop of `openGroceryList` (page.tsx lines 363-366):
`(r.ingredients ?? []).forEach((l) => allLines.push(l))` over the fetched
recipes in order. -/
def flattenIngredients (rs : List Recipe) : List JStr :=
  rs.foldl (fun acc r => acc ++ r.ingredients.getD []) []

/-- The grocery aggregation of `openGroceryList`: flatten all ingredient
lines of the week's recipes in order, then `dedupeIngredients`. -/
def aggregate (rs : List Recipe) : List JStr :=
  dedupeIngredients (flattenIngredients rs)

/-- A JavaScript `Date` in a fixed-offset time zone: `days` counts
calendar days since 1970-01-01 (a Thursday) and `ms` the milliseconds
elapsed since that day's midnight. -/
@[ext] structure JSDate where
  days : Int
  ms : Nat
deriving DecidableEq

/-- Model of `Date.prototype.getDay`: 0 = Sunday .. 6 = Saturday; day 0 of the
epoch was a Thursday (= 4). -/
def jsGetDay (d : JSDate) : Int := (d.days + 4) % 7

/-- The instant a `JSDate` denotes, in milliseconds. -/
def toMs (d : JSDate) : Int := d.days * 86400000 + d.ms

/-- Model of `startOfWeekMonday` (page.tsx lines 9-15): compute
`day = (getDay() + 6) % 7` (Monday = 0 .. Sunday = 6), zero the
time-of-day (`setHours(0,0,0,0)`), and step back `day` calendar days
(`setDate(getDate() - day)`). -/
def startOfWeekMonday (d : JSDate) : JSDate :=
  { days := d.days - (jsGetDay d + 6) % 7, ms := 0 }

/-- Model of `addDays` (page.tsx lines 19-23): `setDate(getDate() + n)` moves by
`n` calendar days keeping the time-of-day. -/
def addDays (d : JSDate) (n : Int) : JSDate :=
  { days := d.days + n, ms := d.ms }

/-- Model of `addWeeks` (page.tsx lines 24-26): `addDays(d, w * 7)`. -/
def addWeeks (d : JSDate) (w : Int) : JSDate := addDays d (w * 7)

/-- One "previous/next week" navigation step of the page: the click sets
`anchorDate` to `addWeeks(d, w)` (lines 390 and 402) and the displayed
`weekStart` is `startOfWeekMonday(anchorDate)` (line 178). -/
def shiftWeek (d : JSDate) (w : Int) : JSDate :=
  startOfWeekMonday (addWeeks d w)

/-- The Monday-start week a date belongs to: Mondays are exactly the day
numbers congruent to 4 modulo 7 (day 4, 1970-01-05, was a Monday), so two
dates are in the same week iff these indices agree. -/
def weekIndex (d : JSDate) : Int := (d.days - 4) / 7

/-- A `plan_items` row (page.tsx lines 33-40). `day` and `meal_type` are
whatever the store returns, so they are modelled as an arbitrary integer
and an arbitrary string. -/
structure PlanItem where
  id : JStr
  meal_plan_id : JStr
  day : Int
  meal_type : JStr
  recipe_id : Option JStr
  notes : Option JStr
deriving DecidableEq

/-- Model of `MEAL_TYPES` (page.tsx line 29). -/
def MEAL_TYPES : List JStr :=
  [js "breakfast", js "lunch", js "dinner", js "snack"]

/-- The 28 grid cells: one per `(dayIndex, meal)` with `dayIndex` in 0..6
and `meal` drawn from `MEAL_TYPES` (the table iterates meals as rows and
the 7 week days as columns; cell identity is the (day, meal) pair). -/
def allCells : List (Int × JStr) :=
  (List.range 7).foldr
    (fun day acc => (MEAL_TYPES.map fun meal => ((day : Int), meal)) ++ acc) []

/-- Model of `cellItems` (page.tsx lines 454-456):
`items.filter((it) => it.day === dayIndex && it.meal_type === meal)`. -/
def cellItems (items : List PlanItem) (day : Int) (meal : JStr) : List PlanItem :=
  items.filter fun it => decide (it.day = day) && decide (it.meal_type = meal)

/-- The displayed label of an entry (page.tsx lines 469-471):
`it.recipe_id ? recipeTitleMap.get(it.recipe_id) ?? "Recipe" : it.notes ?? "Item"`.
The JavaScript condition `it.recipe_id ?` is falsy for `null` and for the
empty string, hence the `rid = []` branch; `?? "Recipe"` and `?? "Item"`
default only the absent (`undefined`/`null`) cases, hence `Option.getD`. -/
def entryLabel (titleMap : List (JStr × JStr)) (it : PlanItem) : JStr :=
  match it.recipe_id with
  | some rid =>
      if rid = [] then it.notes.getD (js "Item")
      else (mapGet titleMap rid).getD (js "Recipe")
  | none => it.notes.getD (js "Item")

/-- The plan-page state components the grocery-list claims concern
(page.tsx lines 177, 194-196). -/
structure PageState where
  anchor : JSDate
  showGroceries : Bool
  groceryItems : List JStr
  checked : List JStr
deriving DecidableEq

/-- Model of `toggleChecked` (page.tsx lines 371-377): `Set` membership toggle. -/
def toggleChecked (checked : List JStr) (item : JStr) : List JStr :=
  if item ∈ checked then checked.erase item else checked ++ [item]

/-- The discrete user actions and asynchronous completions that touch the
grocery-list state. -/
inductive PageEvent where
  /-- A previous/next-week click (`w = ±1`) together with the successful
  completion of the week-change effect it triggers, whose `try` block ends
  with `setShowGroceries(false); setChecked(new Set()); setGroceryItems([])`
  (page.tsx lines 259-261). -/
  | changeWeek (w : Int)
  /-- A previous/next-week click whose triggered week-change effect fails:
  the anchor has already moved (the click is synchronous, page.tsx lines
  390 and 402, so the displayed week derived from it has changed), but the
  plan load throws and control reaches the `catch` (page.tsx lines
  262-264) — or an early `return` in the duplicate page variant (lines
  726-741) — before the resets, so the grocery state, including the
  checked set, is left untouched. -/
  | changeWeekFailed (w : Int)
  /-- Completion of `openGroceryList` with fetched recipe rows
  (page.tsx lines 355-369). -/
  | openGrocery (fetched : List Recipe)
  /-- Completion of `openGroceryList` when the week references no recipes
  (page.tsx lines 349-354). -/
  | openGroceryNoRecipes
  /-- Completion of `openGroceryList` whose recipe fetch fails: only the error message
  is set, the grocery state is untouched (page.tsx lines 359-362). -/
  | openGroceryFailed
  /-- A checkbox toggle (page.tsx line 553). -/
  | toggleItem (item : JStr)
  /-- Closing the grocery drawer (page.tsx line 531). -/
  | closeGrocery

/-- The state transition of the plan page for one event. -/
def step (s : PageState) : PageEvent → PageState
  | .changeWeek w =>
      { anchor := addWeeks s.anchor w
        showGroceries := false
        groceryItems := []
        checked := [] }
  | .changeWeekFailed w => { s with anchor := addWeeks s.anchor w }
  | .openGrocery fetched =>
      { s with
        groceryItems := dedupeIngredients (flattenIngredients fetched)
        checked := []
        showGroceries := true }
  | .openGroceryNoRecipes =>
      { s with groceryItems := [], checked := [], showGroceries := true }
  | .openGroceryFailed => s
  | .toggleItem item => { s with checked := toggleChecked s.checked item }
  | .closeGrocery => { s with showGroceries := false }

/-- The page state right after mount (page.tsx lines 177, 194-196):
anchor normalized from the current date, drawer closed, nothing checked. -/
def initState (today : JSDate) : PageState :=
  { anchor := startOfWeekMonday today
    showGroceries := false
    groceryItems := []
    checked := [] }

/-- The states the plan page can reach in a session. -/
inductive Reachable : PageState → Prop
  | init (today : JSDate) : Reachable (initState today)
  | step (s : PageState) (e : PageEvent) : Reachable s → Reachable (step s e)

/-- The events after which the claims require an empty checked set: a
week change that completes its plan load, or a recomputation of the
grocery list. -/
def resetsChecked : PageEvent → Prop
  | .changeWeek _ => True
  | .changeWeekFailed _ => False
  | .openGrocery _ => True
  | .openGroceryNoRecipes => True
  | .openGroceryFailed => False
  | .toggleItem _ => False
  | .closeGrocery => False

/-- The trimmed text of the first line carrying a given dedup key. -/
def firstHit (key : JStr) : List JStr → Option JStr
  | [] => none
  | l :: ls => if dedupeKey l = key then some (jsTrim l) else firstHit key ls

/-- Invariant of the dedup `Map`: every stored pair is a nonempty key with
its trimmed first-seen line, the key is the line's dedup key, and keys are
pairwise distinct. -/
def GoodPairs (m : List (JStr × JStr)) : Prop :=
  (∀ p ∈ m, p.1 = dedupeKey p.2 ∧ jsTrim p.2 = p.2 ∧ p.1 ≠ []) ∧
  (m.map Prod.fst).Nodup

section Sanity

example : jsTrim (js "  Milk ") = js "Milk" := by decide

example : startOfWeekMonday ⟨6, 7200000⟩ = ⟨4, 0⟩ := by decide

example : jsGetDay ⟨4, 0⟩ = 1 := by decide

example :
    cellItems
      [{ id := js "a", meal_plan_id := js "p", day := 0,
         meal_type := js "dinner", recipe_id := none, notes := some (js "leftovers") }]
      0 (js "dinner") ≠ [] := by decide

example : dedupeKey (js " 2 Eggs ") = js "2 eggs" := by decide

example :
    dedupeIngredients
      [js "2 eggs", js "Milk", js "milk", js "2 Eggs", js "Salt"] =
      [js "2 eggs", js "Milk", js "Salt"] := by decide

end Sanity

/-! ## Week normalization (claims C4, C5, C7) -/

/-- C4: for every date `d` (with a valid time-of-day), `startOfWeekMonday d`
falls on a Monday, is ≤ `d`, and lies less than 7 days before `d`; and any
two dates of the same Monday-start week normalize to the same result. -/
theorem startOfWeekMonday_monday_le_same_week :
    ∀ d : JSDate, d.ms < 86400000 →
      jsGetDay (startOfWeekMonday d) = 1 ∧
      toMs (startOfWeekMonday d) ≤ toMs d ∧
      toMs d - toMs (startOfWeekMonday d) < 7 * 86400000 ∧
      ∀ e : JSDate, weekIndex e = weekIndex d →
        startOfWeekMonday e = startOfWeekMonday d := by
  intro d h
  obtain ⟨days, ms⟩ := d
  replace h : ms < 86400000 := h
  refine ⟨?_, ?_, ?_, ?_⟩
  · simp only [startOfWeekMonday, jsGetDay]
    omega
  · simp only [startOfWeekMonday, jsGetDay, toMs]
    omega
  · simp only [startOfWeekMonday, jsGetDay, toMs]
    omega
  · intro e he
    obtain ⟨ed, ems⟩ := e
    simp only [weekIndex] at he
    simp only [startOfWeekMonday, jsGetDay, JSDate.mk.injEq, and_true]
    omega

/-- Witness for C4 at a concrete Saturday with a nonzero time-of-day
(day 6 = 1970-01-07... day 6 is a Wednesday? day 6 = epoch + 6 = Wednesday;
its Monday is day 4), compared against the Tuesday of the same week. -/
theorem startOfWeekMonday_monday_le_same_week_witness :
    jsGetDay (startOfWeekMonday ⟨6, 7200000⟩) = 1 ∧
    startOfWeekMonday ⟨5, 0⟩ = startOfWeekMonday ⟨6, 7200000⟩ := by
  have h := startOfWeekMonday_monday_le_same_week ⟨6, 7200000⟩ (by decide)
  exact ⟨h.1, h.2.2.2 ⟨5, 0⟩ (by decide)⟩

/-- C5: `startOfWeekMonday` is idempotent; moreover it never changes the
calendar day of a date already on a Monday, and it returns a Monday date
(a Monday with zeroed time-of-day, i.e. a week-start as stored in
`week_start`) completely unchanged. -/
theorem startOfWeekMonday_idem :
    ∀ d : JSDate,
      startOfWeekMonday (startOfWeekMonday d) = startOfWeekMonday d ∧
      (jsGetDay d = 1 → (startOfWeekMonday d).days = d.days) ∧
      (jsGetDay d = 1 → d.ms = 0 → startOfWeekMonday d = d) := by
  intro d
  obtain ⟨days, ms⟩ := d
  refine ⟨?_, ?_, ?_⟩
  · simp only [startOfWeekMonday, jsGetDay, JSDate.mk.injEq, and_true]
    omega
  · intro h1
    simp only [jsGetDay] at h1
    simp only [startOfWeekMonday, jsGetDay]
    omega
  · intro h1 h0
    simp only [jsGetDay] at h1
    simp only at h0
    simp only [startOfWeekMonday, jsGetDay, JSDate.mk.injEq, and_true]
    omega

/-- Witness for C5 at day 11 (a Monday) and at day 9 with an afternoon
time-of-day. -/
theorem startOfWeekMonday_idem_witness :
    startOfWeekMonday (startOfWeekMonday ⟨9, 54000000⟩) =
      startOfWeekMonday ⟨9, 54000000⟩ ∧
    startOfWeekMonday ⟨11, 0⟩ = ⟨11, 0⟩ := by
  exact ⟨(startOfWeekMonday_idem ⟨9, 54000000⟩).1,
    (startOfWeekMonday_idem ⟨11, 0⟩).2.2 (by decide) (by decide)⟩

/-- C7: shifting a normalized week-start forward one week and back one
week is the identity. -/
theorem shiftWeek_forward_back :
    ∀ w : JSDate, w = startOfWeekMonday w →
      shiftWeek (shiftWeek w 1) (-1) = w := by
  intro w hw
  obtain ⟨days, ms⟩ := w
  simp only [startOfWeekMonday, jsGetDay, JSDate.mk.injEq] at hw
  simp only [shiftWeek, addWeeks, addDays, startOfWeekMonday, jsGetDay,
    JSDate.mk.injEq, and_true]
  omega

/-- Witness for C7 at the normalized week-start day 4 (1970-01-05, the
first Monday after the epoch). -/
theorem shiftWeek_forward_back_witness :
    shiftWeek (shiftWeek ⟨4, 0⟩ 1) (-1) = ⟨4, 0⟩ :=
  shiftWeek_forward_back ⟨4, 0⟩ (by decide)

/-! ## Trimming lemmas -/

/-- Every list is some (here: whitespace) junk followed by its
`dropWhile`. -/
theorem exists_dropWhile_decomp {α : Type} (p : α → Bool) :
    ∀ l : List α, ∃ t, l = t ++ l.dropWhile p := by
  intro l
  induction l with
  | nil => exact ⟨[], rfl⟩
  | cons c cs ih =>
    by_cases h : p c
    · obtain ⟨t, ht⟩ := ih
      refine ⟨c :: t, ?_⟩
      simp only [List.dropWhile_cons, if_pos h, List.cons_append]
      exact congrArg (c :: ·) ht
    · exact ⟨[], by simp [List.dropWhile_cons, h]⟩

/-- If `dropWhile` leaves a nonempty list unchanged, its head fails the
predicate. -/
theorem head_false_of_dropWhile_self {α : Type} (p : α → Bool) {c : α}
    {cs : List α} (h : (c :: cs).dropWhile p = c :: cs) : p c = false := by
  by_cases hc : p c
  · exfalso
    rw [List.dropWhile_cons, if_pos hc] at h
    have hlen := congrArg List.length h
    have hle := (List.dropWhile_sublist (l := cs) p).length_le
    simp only [List.length_cons] at hlen
    omega
  · simpa using hc

/-- Dropping trailing junk from a list with no leading junk leaves no
leading junk. -/
theorem dropWhile_reverse_dropWhile {α : Type} (p : α → Bool) {l : List α}
    (h : l.dropWhile p = l) :
    ((l.reverse.dropWhile p).reverse).dropWhile p =
      (l.reverse.dropWhile p).reverse := by
  obtain ⟨t, ht⟩ := exists_dropWhile_decomp p l.reverse
  have hl : l = (l.reverse.dropWhile p).reverse ++ t.reverse := by
    have h2 := congrArg List.reverse ht
    simpa [List.reverse_append] using h2
  cases hu : (l.reverse.dropWhile p).reverse with
  | nil => simp
  | cons c us =>
    have hlc : l = c :: (us ++ t.reverse) := by
      rw [hl, hu]; simp
    have hpc : p c = false := by
      apply head_false_of_dropWhile_self p
      rw [← hlc]
      exact h
    rw [List.dropWhile_cons, if_neg (by simp [hpc])]

/-- A trimmed string has no leading whitespace. -/
theorem jsTrim_dropWhile_self (s : JStr) :
    (jsTrim s).dropWhile jsWS = jsTrim s :=
  dropWhile_reverse_dropWhile jsWS (List.dropWhile_idempotent _ _)

/-- Trimming is idempotent. -/
theorem jsTrim_idem (s : JStr) : jsTrim (jsTrim s) = jsTrim s := by
  show (((jsTrim s).dropWhile jsWS).reverse.dropWhile jsWS).reverse = jsTrim s
  rw [jsTrim_dropWhile_self]
  have h2 : (jsTrim s).reverse = (s.dropWhile jsWS).reverse.dropWhile jsWS := by
    simp [jsTrim]
  rw [h2, List.dropWhile_idempotent, ← h2, List.reverse_reverse]

/-- The dedup key of a trimmed line is the line's dedup key. -/
theorem dedupeKey_jsTrim (l : JStr) : dedupeKey (jsTrim l) = dedupeKey l := by
  unfold dedupeKey
  rw [jsTrim_idem]

/-! ## `Map` lemmas -/

/-- Reading `Map.get` over an appended association list. -/
theorem mapGet_append (m m2 : List (JStr × JStr)) (k : JStr) :
    mapGet (m ++ m2) k = (mapGet m k).elim (mapGet m2 k) some := by
  induction m with
  | nil => simp [mapGet]
  | cons p m ih =>
    by_cases hp : p.1 = k <;> simp [mapGet, hp, ih]

/-- Lookup `Map.get` misses exactly the keys not stored. -/
theorem mapGet_eq_none_iff (m : List (JStr × JStr)) (k : JStr) :
    mapGet m k = none ↔ k ∉ m.map Prod.fst := by
  induction m with
  | nil => simp [mapGet]
  | cons p m ih =>
    rw [List.map_cons, List.mem_cons]
    by_cases hp : p.1 = k
    · simp [mapGet, hp]
    · simp only [mapGet, if_neg hp, ih]
      constructor
      · intro h
        rintro (h1 | h2)
        · exact hp h1.symm
        · exact h h2
      · exact fun h h2 => h (Or.inr h2)

/-- With pairwise-distinct keys, `Map.get` answers are exactly the stored
pairs. -/
theorem mapGet_eq_some_iff_mem {m : List (JStr × JStr)}
    (hnd : (m.map Prod.fst).Nodup) (k v : JStr) :
    mapGet m k = some v ↔ (k, v) ∈ m := by
  induction m with
  | nil => simp [mapGet]
  | cons p m ih =>
    obtain ⟨k1, v1⟩ := p
    rw [List.map_cons, List.nodup_cons] at hnd
    rw [List.mem_cons]
    simp only [mapGet]
    by_cases hp : k1 = k
    · subst hp
      rw [if_pos rfl]
      constructor
      · intro hv
        refine Or.inl ?_
        rw [← Option.some.inj hv]
      · rintro (hv | hv)
        · injection hv with h1 h2
          rw [h2]
        · exact absurd (List.mem_map_of_mem Prod.fst hv) (by simpa using hnd.1)
    · rw [if_neg hp, ih hnd.2]
      constructor
      · exact Or.inr
      · rintro (hv | hv)
        · injection hv with h1 h2
          exact absurd h1.symm hp
        · exact hv

/-! ## Characterizing the dedup `Map` -/

/-- Effect of one loop iteration on a later `Map.get`. -/
theorem mapGet_insertLine (m : List (JStr × JStr)) (l key : JStr) :
    mapGet (insertLine m l) key =
      (mapGet m key).elim
        (if dedupeKey l = key ∧ key ≠ [] then some (jsTrim l) else none)
        some := by
  unfold insertLine
  by_cases hk : dedupeKey l = []
  · rw [if_pos hk]
    cases hkey : mapGet m key
    · have hc : ¬(dedupeKey l = key ∧ key ≠ []) := by
        rintro ⟨h1, h2⟩
        exact h2 (by rw [← h1, hk])
      simp [hkey, hc]
    · simp [hkey]
  · rw [if_neg hk]
    by_cases hm : (mapGet m (dedupeKey l)).isSome
    · rw [if_pos hm]
      cases hkey : mapGet m key
      · have hc : ¬(dedupeKey l = key ∧ key ≠ []) := by
          rintro ⟨h1, h2⟩
          rw [h1, hkey] at hm
          simp at hm
        simp [hkey, hc]
      · simp [hkey]
    · rw [if_neg hm]
      rw [mapGet_append]
      cases hkey : mapGet m key
      · by_cases hlk : dedupeKey l = key
        · subst hlk
          simp [mapGet, hk]
        · simp [mapGet, hlk, fun h : dedupeKey l = key ∧ key ≠ [] => hlk h.1]
      · simp [hkey]

/-- Lookup `Map.get` after the whole loop, relative to an arbitrary starting
`Map`: the first hit in the remaining lines, unless the key is empty or
already present. -/
theorem mapGet_foldl_insertLine (lines : List JStr) :
    ∀ (m : List (JStr × JStr)) (key : JStr),
      mapGet (lines.foldl insertLine m) key =
        (mapGet m key).elim
          (if key = [] then none else firstHit key lines) some := by
  induction lines with
  | nil =>
    intro m key
    cases hkey : mapGet m key <;> simp [hkey, firstHit]
  | cons l ls ih =>
    intro m key
    rw [List.foldl_cons, ih, mapGet_insertLine]
    cases hkey : mapGet m key
    · simp only [Option.elim]
      by_cases hc : dedupeKey l = key ∧ key ≠ []
      · obtain ⟨h1, h2⟩ := hc
        simp [h1, h2, firstHit]
      · by_cases hke : key = []
        · simp [hke, hc]
        · have h1 : dedupeKey l ≠ key := fun h => hc ⟨h, hke⟩
          simp [hke, hc, firstHit, h1]
    · simp

/-- Lookup `Map.get` on the dedup `Map`: exactly the first occurrence of each
nonempty key. -/
theorem mapGet_dedupePairs (lines : List JStr) (key : JStr) :
    mapGet (dedupePairs lines) key =
      if key = [] then none else firstHit key lines := by
  have h := mapGet_foldl_insertLine lines [] key
  simpa [dedupePairs, mapGet] using h

/-- One loop iteration preserves the `Map` invariant. -/
theorem goodPairs_insertLine (m : List (JStr × JStr)) (l : JStr)
    (h : GoodPairs m) : GoodPairs (insertLine m l) := by
  obtain ⟨h1, h2⟩ := h
  unfold insertLine
  by_cases hk : dedupeKey l = []
  · rw [if_pos hk]
    exact ⟨h1, h2⟩
  · rw [if_neg hk]
    by_cases hm : (mapGet m (dedupeKey l)).isSome
    · rw [if_pos hm]
      exact ⟨h1, h2⟩
    · rw [if_neg hm]
      constructor
      · intro p hp
        rcases List.mem_append.mp hp with hp | hp
        · exact h1 p hp
        · rw [List.mem_singleton] at hp
          subst hp
          exact ⟨(dedupeKey_jsTrim l).symm, jsTrim_idem l, hk⟩
      · rw [List.map_append, List.nodup_append]
        refine ⟨h2, by simp, ?_⟩
        intro a ha hb
        simp only [List.map_cons, List.map_nil, List.mem_singleton] at hb
        subst hb
        have hnone : mapGet m (dedupeKey l) = none := by
          cases hg : mapGet m (dedupeKey l)
          · rfl
          · rw [hg] at hm
            simp at hm
        exact (mapGet_eq_none_iff m (dedupeKey l)).mp hnone ha

/-- The dedup `Map` satisfies its invariant. -/
theorem goodPairs_dedupePairs (lines : List JStr) :
    GoodPairs (dedupePairs lines) := by
  have key : ∀ m, GoodPairs m → GoodPairs (lines.foldl insertLine m) := by
    induction lines with
    | nil => exact fun m hm => hm
    | cons l ls ih => exact fun m hm => ih _ (goodPairs_insertLine m l hm)
  exact key [] ⟨by simp, by simp⟩

/-- The search `firstHit` finds `r` exactly when the input decomposes around a first
line with the given key, trimming to `r`. -/
theorem firstHit_eq_some_iff (key r : JStr) (lines : List JStr) :
    firstHit key lines = some r ↔
      ∃ pre l post, lines = pre ++ l :: post ∧ dedupeKey l = key ∧
        jsTrim l = r ∧ ∀ x ∈ pre, dedupeKey x ≠ key := by
  induction lines with
  | nil =>
    simp only [firstHit]
    constructor
    · rintro ⟨⟩
    · rintro ⟨pre, l, post, h, -, -, -⟩
      exact absurd h.symm (List.append_ne_nil_of_right_ne_nil pre (by simp))
  | cons a as ih =>
    by_cases ha : dedupeKey a = key
    · rw [firstHit, if_pos ha]
      constructor
      · intro hr
        exact ⟨[], a, as, by simp, ha, Option.some.inj hr, by simp⟩
      · rintro ⟨pre, l, post, hdec, hkl, hr, hpre⟩
        cases pre with
        | nil =>
          simp only [List.nil_append, List.cons.injEq] at hdec
          rw [hdec.1, hr]
        | cons p ps =>
          simp only [List.cons_append, List.cons.injEq] at hdec
          exact absurd (hdec.1 ▸ ha) (hpre p (by simp))
    · rw [firstHit, if_neg ha, ih]
      constructor
      · rintro ⟨pre, l, post, hdec, hkl, hr, hpre⟩
        refine ⟨a :: pre, l, post, by simp [hdec], hkl, hr, ?_⟩
        intro x hx
        rcases List.mem_cons.mp hx with hx | hx
        · rw [hx]; exact ha
        · exact hpre x hx
      · rintro ⟨pre, l, post, hdec, hkl, hr, hpre⟩
        cases pre with
        | nil =>
          simp only [List.nil_append, List.cons.injEq] at hdec
          exact absurd (hdec.1 ▸ hkl) ha
        | cons p ps =>
          simp only [List.cons_append, List.cons.injEq] at hdec
          refine ⟨ps, l, post, hdec.2, hkl, hr, ?_⟩
          exact fun x hx => hpre x (by simp [hx])

/-- Membership in the dedup output: exactly the trimmed first occurrences
of the nonempty keys. -/
theorem mem_dedupeIngredients_iff (lines : List JStr) (r : JStr) :
    r ∈ dedupeIngredients lines ↔
      ∃ pre l post, lines = pre ++ l :: post ∧ jsTrim l = r ∧
        dedupeKey l ≠ [] ∧ ∀ x ∈ pre, dedupeKey x ≠ dedupeKey l := by
  have hnd := (goodPairs_dedupePairs lines).2
  constructor
  · intro hr
    simp only [dedupeIngredients, List.mem_insertionSort] at hr
    obtain ⟨p, hp, hpr⟩ := List.mem_map.mp hr
    have hget : mapGet (dedupePairs lines) p.1 = some p.2 :=
      (mapGet_eq_some_iff_mem hnd p.1 p.2).mpr (by rw [Prod.mk.eta]; exact hp)
    rw [mapGet_dedupePairs] at hget
    by_cases hk : p.1 = []
    · rw [if_pos hk] at hget
      exact absurd hget (by simp)
    · rw [if_neg hk] at hget
      obtain ⟨pre, l, post, hdec, hkl, hr2, hpre⟩ :=
        (firstHit_eq_some_iff p.1 p.2 lines).mp hget
      refine ⟨pre, l, post, hdec, by rw [hr2, hpr], by rw [hkl]; exact hk, ?_⟩
      intro x hx
      rw [hkl]
      exact hpre x hx
  · rintro ⟨pre, l, post, hdec, hr2, hk, hpre⟩
    have hfh : firstHit (dedupeKey l) lines = some r :=
      (firstHit_eq_some_iff _ r lines).mpr ⟨pre, l, post, hdec, rfl, hr2, hpre⟩
    have hget : mapGet (dedupePairs lines) (dedupeKey l) = some r := by
      rw [mapGet_dedupePairs, if_neg hk]
      exact hfh
    have hmem := (mapGet_eq_some_iff_mem hnd _ _).mp hget
    simp only [dedupeIngredients, List.mem_insertionSort]
    exact List.mem_map.mpr ⟨(dedupeKey l, r), hmem, rfl⟩

/-- Every line of the dedup output is already trimmed and has a nonempty
dedup key. -/
theorem mem_dedupe_good (lines : List JStr) (r : JStr) (hr : r ∈ dedupeIngredients lines) :
    jsTrim r = r ∧ dedupeKey r ≠ [] := by
  have hgood := (goodPairs_dedupePairs lines).1
  simp only [dedupeIngredients, List.mem_insertionSort] at hr
  obtain ⟨p, hp, hpr⟩ := List.mem_map.mp hr
  obtain ⟨h1, h2, h3⟩ := hgood p hp
  constructor
  · rw [← hpr]
    exact h2
  · rw [← hpr, ← h1]
    exact h3

/-- The dedup output has pairwise distinct dedup keys. -/
theorem dedupe_pairwise_keys (lines : List JStr) :
    (dedupeIngredients lines).Pairwise fun a b => dedupeKey a ≠ dedupeKey b := by
  obtain ⟨hgood, hnd⟩ := goodPairs_dedupePairs lines
  have hmapeq : (dedupePairs lines).map Prod.fst =
      (dedupePairs lines).map fun p => dedupeKey p.2 :=
    List.map_eq_map_iff.mpr fun p hp => (hgood p hp).1
  rw [hmapeq] at hnd
  have h3 : (((dedupePairs lines).map Prod.snd).map dedupeKey).Nodup := by
    rw [List.map_map]
    exact hnd
  have h4 : ((dedupePairs lines).map Prod.snd).Pairwise
      fun a b => dedupeKey a ≠ dedupeKey b :=
    List.pairwise_map.mp h3
  exact ((List.perm_insertionSort (· ≤ ·) _).pairwise_iff
    (fun hab h => hab h.symm)).mpr h4

/-- The dedup output is sorted. -/
theorem dedupe_sorted (lines : List JStr) :
    (dedupeIngredients lines).Sorted (· ≤ ·) :=
  List.sorted_insertionSort (· ≤ ·) _

/-- Lines that are already trimmed, have nonempty pairwise-distinct keys,
and are fresh for the accumulated `Map` are appended verbatim by the dedup
loop. -/
theorem foldl_insertLine_fresh :
    ∀ (xs : List JStr) (m : List (JStr × JStr)),
      (∀ x ∈ xs, jsTrim x = x ∧ dedupeKey x ≠ []) →
      xs.Pairwise (fun a b => dedupeKey a ≠ dedupeKey b) →
      (∀ x ∈ xs, mapGet m (dedupeKey x) = none) →
      xs.foldl insertLine m = m ++ xs.map fun r => (dedupeKey r, r) := by
  intro xs
  induction xs with
  | nil =>
    intro m _ _ _
    simp
  | cons x xs ih =>
    intro m hgood hpw hfresh
    rw [List.foldl_cons]
    obtain ⟨hx1, hx2⟩ := hgood x (by simp)
    have hmx := hfresh x (by simp)
    have hins : insertLine m x = m ++ [(dedupeKey x, x)] := by
      unfold insertLine
      rw [if_neg hx2, hmx]
      simp [hx1]
    rw [hins, ih (m ++ [(dedupeKey x, x)])
      (fun y hy => hgood y (by simp [hy]))
      (List.Pairwise.of_cons hpw)
      ?_]
    · simp
    · intro y hy
      rw [mapGet_append, hfresh y (by simp [hy])]
      have hxy : dedupeKey x ≠ dedupeKey y :=
        (List.pairwise_cons.mp hpw).1 y hy
      simp [mapGet, hxy]

/-- The dedup is idempotent on whole outputs. -/
theorem dedupe_idem (lines : List JStr) :
    dedupeIngredients (dedupeIngredients lines) = dedupeIngredients lines := by
  have hpairs : dedupePairs (dedupeIngredients lines) =
      (dedupeIngredients lines).map fun r => (dedupeKey r, r) := by
    have h := foldl_insertLine_fresh (dedupeIngredients lines) []
      (fun r hr => mem_dedupe_good lines r hr)
      (dedupe_pairwise_keys lines)
      (fun x _ => rfl)
    simpa [dedupePairs] using h
  show List.insertionSort (· ≤ ·)
      ((dedupePairs (dedupeIngredients lines)).map Prod.snd) =
    dedupeIngredients lines
  rw [hpairs, List.map_map]
  have hid : (Prod.snd ∘ fun r : JStr => (dedupeKey r, r)) = id := rfl
  rw [hid, List.map_id]
  exact (dedupe_sorted lines).insertionSort_eq

/-- Flattening one-line recipes built from given lines returns exactly
those lines. -/
theorem flatten_oneLine (ls : List JStr) :
    flattenIngredients (ls.map fun l => ⟨js "", js "", some [l]⟩) = ls := by
  have key : ∀ (ls : List JStr) (acc : List JStr),
      ((ls.map fun l => (⟨js "", js "", some [l]⟩ : Recipe)).foldl
        (fun acc r => acc ++ r.ingredients.getD []) acc) = acc ++ ls := by
    intro ls
    induction ls with
    | nil =>
      intro acc
      simp
    | cons l ls ih =>
      intro acc
      rw [List.map_cons, List.foldl_cons, ih]
      simp
  simpa [flattenIngredients] using key ls []

/-- A recipe collection whose entries all have no ingredient lines
flattens to nothing. -/
theorem flatten_nil_of_empty :
    ∀ rs : List Recipe, (∀ r ∈ rs, r.ingredients.getD [] = []) →
      flattenIngredients rs = [] := by
  intro rs
  induction rs with
  | nil =>
    intro _
    rfl
  | cons r rs ih =>
    intro h
    have hr := h r (by simp)
    show rs.foldl (fun acc r => acc ++ r.ingredients.getD [])
      ([] ++ r.ingredients.getD []) = []
    rw [hr]
    exact ih fun x hx => h x (by simp [hx])

/-! ## Grocery aggregation claims (C1, C3, C6, C8) -/

/-- C1: the aggregation keys each line by its trimmed lower-cased text and
keeps the first occurrence's trimmed original casing, discarding every
later duplicate; in particular, aggregating recipe A
(`["2 eggs", "Milk"]`) then recipe B (`["milk", "2 Eggs", "Salt"]`)
returns exactly `["2 eggs", "Milk", "Salt"]`. -/
theorem dedupe_first_occurrence_wins :
    (∀ (lines : List JStr) (r : JStr),
      r ∈ dedupeIngredients lines ↔
        ∃ pre l post, lines = pre ++ l :: post ∧ jsTrim l = r ∧
          dedupeKey l ≠ [] ∧ ∀ x ∈ pre, dedupeKey x ≠ dedupeKey l) ∧
    aggregate
        [⟨js "A", js "Recipe A", some [js "2 eggs", js "Milk"]⟩,
         ⟨js "B", js "Recipe B", some [js "milk", js "2 Eggs", js "Salt"]⟩] =
      [js "2 eggs", js "Milk", js "Salt"] :=
  ⟨mem_dedupeIngredients_iff, by decide⟩

/-- C3: the aggregation output never contains two lines that agree after
trimming and case folding, never contains an empty or whitespace-only
line, and is sorted ascending in the lexicographic string order of the
model. -/
theorem dedupe_nodup_nonempty_sorted :
    ∀ lines : List JStr,
      ((dedupeIngredients lines).Pairwise fun a b => dedupeKey a ≠ dedupeKey b) ∧
      (∀ r ∈ dedupeIngredients lines, jsTrim r ≠ []) ∧
      (dedupeIngredients lines).Sorted (· ≤ ·) := by
  intro lines
  refine ⟨dedupe_pairwise_keys lines, ?_, dedupe_sorted lines⟩
  intro r hr
  obtain ⟨h1, h2⟩ := mem_dedupe_good lines r hr
  intro h0
  apply h2
  show jsToLower (jsTrim r) = []
  rw [h0]
  rfl

/-- Witness for C3 at a concrete input with duplicates, blanks and
unsorted order. -/
theorem dedupe_nodup_nonempty_sorted_witness :
    (∀ r ∈ dedupeIngredients [js "b", js " ", js "B", js "a"], jsTrim r ≠ []) ∧
    (dedupeIngredients [js "b", js " ", js "B", js "a"]).Sorted (· ≤ ·) ∧
    dedupeIngredients [js "b", js " ", js "B", js "a"] = [js "a", js "b"] := by
  have h := dedupe_nodup_nonempty_sorted [js "b", js " ", js "B", js "a"]
  exact ⟨h.2.1, h.2.2, by decide⟩

/-- C6: aggregating the lines of a prior aggregation's output, each line
treated as a one-line recipe, returns the original aggregation. -/
theorem aggregate_idem :
    ∀ rs : List Recipe,
      aggregate ((aggregate rs).map fun l => ⟨js "", js "", some [l]⟩) =
        aggregate rs := by
  intro rs
  show dedupeIngredients
      (flattenIngredients ((aggregate rs).map fun l => ⟨js "", js "", some [l]⟩)) =
    aggregate rs
  rw [flatten_oneLine]
  show dedupeIngredients (dedupeIngredients (flattenIngredients rs)) =
    dedupeIngredients (flattenIngredients rs)
  exact dedupe_idem (flattenIngredients rs)

/-- C8: aggregating no recipes, or recipes that all carry no ingredient
lines (`null` or `[]`), yields the empty list (and, being a total
function, raises no error). -/
theorem aggregate_empty :
    aggregate ([] : List Recipe) = [] ∧
    ∀ rs : List Recipe, (∀ r ∈ rs, r.ingredients.getD [] = []) →
      aggregate rs = [] := by
  constructor
  · rfl
  · intro rs h
    show dedupeIngredients (flattenIngredients rs) = []
    rw [flatten_nil_of_empty rs h]
    rfl

/-- Witness for C8: one recipe with `null` ingredients and one with an
empty list. -/
theorem aggregate_empty_witness :
    aggregate [⟨js "r1", js "R1", none⟩, ⟨js "r2", js "R2", some []⟩] = [] :=
  aggregate_empty.2 _ (by decide)

/-! ## Week-grid projection claims (C2, C10) -/

/-- C2: each grid cell holds exactly the entries whose `(day, meal_type)`
matches, in the relative order they were supplied (the filter yields a
sublist); and the displayed label is the resolved title for a resolvable
recipe reference, the placeholder "Recipe" for an unresolvable one, the
notes text for a note entry, and the placeholder "Item" when neither is
present. (A recipe reference is a non-null, nonempty id; the page itself
drops empty ids with `filter(Boolean)` before resolving titles.) -/
theorem grid_projection_spec :
    ∀ (items : List PlanItem) (day : Int) (meal : JStr)
      (titleMap : List (JStr × JStr)),
      (cellItems items day meal).Sublist items ∧
      (∀ it, it ∈ cellItems items day meal ↔
        it ∈ items ∧ it.day = day ∧ it.meal_type = meal) ∧
      (∀ it rid t, it.recipe_id = some rid → rid ≠ [] →
        mapGet titleMap rid = some t → entryLabel titleMap it = t) ∧
      (∀ it rid, it.recipe_id = some rid → rid ≠ [] →
        mapGet titleMap rid = none → entryLabel titleMap it = js "Recipe") ∧
      (∀ it s, it.recipe_id = none → it.notes = some s →
        entryLabel titleMap it = s) ∧
      (∀ it, it.recipe_id = none → it.notes = none →
        entryLabel titleMap it = js "Item") := by
  intro items day meal titleMap
  refine ⟨List.filter_sublist items, ?_, ?_, ?_, ?_, ?_⟩
  · intro it
    simp [cellItems, List.mem_filter]
  · intro it rid t h1 h2 h3
    simp [entryLabel, h1, h2, h3]
  · intro it rid h1 h2 h3
    simp [entryLabel, h1, h2, h3]
  · intro it s h1 h2
    simp [entryLabel, h1, h2]
  · intro it h1 h2
    simp [entryLabel, h1, h2]

/-- Witness for C2, following the spec's worked example: a notes entry
and a recipe entry in cell (0, dinner), kept in supplied order, labelled
"leftovers" and by the resolved title. -/
theorem grid_projection_spec_witness :
    cellItems
        [{ id := js "e1", meal_plan_id := js "p", day := 0,
           meal_type := js "dinner", recipe_id := none,
           notes := some (js "leftovers") },
         { id := js "e2", meal_plan_id := js "p", day := 0,
           meal_type := js "dinner", recipe_id := some (js "r1"),
           notes := none }]
        0 (js "dinner") =
      [{ id := js "e1", meal_plan_id := js "p", day := 0,
         meal_type := js "dinner", recipe_id := none,
         notes := some (js "leftovers") },
       { id := js "e2", meal_plan_id := js "p", day := 0,
         meal_type := js "dinner", recipe_id := some (js "r1"),
         notes := none }] ∧
    entryLabel [(js "r1", js "Pasta")]
        { id := js "e2", meal_plan_id := js "p", day := 0,
          meal_type := js "dinner", recipe_id := some (js "r1"),
          notes := none } = js "Pasta" ∧
    entryLabel [(js "r1", js "Pasta")]
        { id := js "e1", meal_plan_id := js "p", day := 0,
          meal_type := js "dinner", recipe_id := none,
          notes := some (js "leftovers") } = js "leftovers" := by
  refine ⟨by decide, ?_, ?_⟩
  · exact (grid_projection_spec [] 0 (js "dinner") [(js "r1", js "Pasta")]).2.2.1
      _ (js "r1") (js "Pasta") rfl (by decide) (by decide)
  · exact (grid_projection_spec [] 0 (js "dinner") [(js "r1", js "Pasta")]).2.2.2.2.1
      _ (js "leftovers") rfl rfl

/-- Counting `countP` as a sum of indicator values. -/
theorem countP_as_sum {γ : Type} (l : List γ) (q : γ → Bool) :
    l.countP q = (l.map fun c => if q c then 1 else 0).sum := by
  induction l with
  | nil => simp
  | cons a l ih =>
    rw [List.countP_cons, List.map_cons, List.sum_cons, ih]
    by_cases h : q a <;> simp [h] <;> omega

/-- Sums of pointwise sums split. -/
theorem sum_map_add {γ : Type} (l : List γ) (f g : γ → Nat) :
    (l.map fun c => f c + g c).sum = (l.map f).sum + (l.map g).sum := by
  induction l with
  | nil => simp
  | cons a l ih =>
    simp only [List.map_cons, List.sum_cons, ih]
    omega

/-- Double counting: summing per-cell match counts over the cells equals
summing per-item matching-cell counts over the items. -/
theorem sum_countP_exchange {γ α : Type} (cells : List γ) (p : γ → α → Bool) :
    ∀ items : List α,
      (cells.map fun c => items.countP (p c)).sum =
        (items.map fun it => cells.countP fun c => p c it).sum := by
  intro items
  induction items with
  | nil => simp
  | cons it its ih =>
    simp only [List.countP_cons, List.map_cons, List.sum_cons]
    rw [sum_map_add, ih, ← countP_as_sum]
    omega

/-- Every cell of the grid has a day index in 0..6 and one of the four
meal types. -/
theorem allCells_bounds :
    ∀ c ∈ allCells, 0 ≤ c.1 ∧ c.1 ≤ 6 ∧ c.2 ∈ MEAL_TYPES := by
  decide

/-- Every in-range (day, meal) pair is a grid cell. -/
theorem mem_allCells_of (d : Int) (m : JStr) (h0 : 0 ≤ d) (h6 : d ≤ 6)
    (hm : m ∈ MEAL_TYPES) : (d, m) ∈ allCells := by
  simp only [MEAL_TYPES, List.mem_cons, List.not_mem_nil, or_false] at hm
  interval_cases d <;> rcases hm with h | h | h | h <;> subst h <;> decide

/-- A (day, meal) pair matches exactly one grid cell when in range, none
otherwise. -/
theorem allCells_countP_pair (d : Int) (mt : JStr) :
    (allCells.countP fun c => decide (d = c.1) && decide (mt = c.2)) =
      if 0 ≤ d ∧ d ≤ 6 ∧ mt ∈ MEAL_TYPES then 1 else 0 := by
  by_cases h : 0 ≤ d ∧ d ≤ 6 ∧ mt ∈ MEAL_TYPES
  · rw [if_pos h]
    obtain ⟨h0, h6, hm⟩ := h
    simp only [MEAL_TYPES, List.mem_cons, List.not_mem_nil, or_false] at hm
    interval_cases d <;> rcases hm with hmt | hmt | hmt | hmt <;> subst hmt <;>
      decide
  · rw [if_neg h, List.countP_eq_zero]
    intro c hc
    obtain ⟨hc0, hc6, hcm⟩ := allCells_bounds c hc
    simp only [Bool.and_eq_true, decide_eq_true_eq, not_and]
    intro hd hm2
    exact h ⟨by omega, by omega, by rw [hm2]; exact hcm⟩

/-- C10: an entry with day outside 0..6 or an unknown meal type lands in
no grid cell (silently dropped, not an error); an entry with day in 0..6
and one of the four meal types lands in exactly one cell; and the total
number of entries over all 28 cells equals the number of well-formed
entries. -/
theorem grid_placement_partition :
    ∀ items : List PlanItem,
      (∀ it ∈ items, ¬(0 ≤ it.day ∧ it.day ≤ 6 ∧ it.meal_type ∈ MEAL_TYPES) →
        ∀ c ∈ allCells, it ∉ cellItems items c.1 c.2) ∧
      (∀ it ∈ items, 0 ≤ it.day → it.day ≤ 6 → it.meal_type ∈ MEAL_TYPES →
        ∃! c, c ∈ allCells ∧ it ∈ cellItems items c.1 c.2) ∧
      (allCells.map fun c => (cellItems items c.1 c.2).length).sum =
        items.countP fun it =>
          decide (0 ≤ it.day) && decide (it.day ≤ 6) &&
            decide (it.meal_type ∈ MEAL_TYPES) := by
  intro items
  refine ⟨?_, ?_, ?_⟩
  · intro it _ hbad c hc hmem
    simp only [cellItems, List.mem_filter, Bool.and_eq_true,
      decide_eq_true_eq] at hmem
    obtain ⟨hc0, hc6, hcm⟩ := allCells_bounds c hc
    exact hbad ⟨by omega, by omega, hmem.2.2 ▸ hcm⟩
  · intro it hit h0 h6 hm
    refine ⟨(it.day, it.meal_type), ⟨mem_allCells_of _ _ h0 h6 hm, ?_⟩, ?_⟩
    · simp [cellItems, List.mem_filter, hit]
    · rintro ⟨cd, cm⟩ ⟨-, hcin⟩
      simp only [cellItems, List.mem_filter, Bool.and_eq_true,
        decide_eq_true_eq] at hcin
      rw [Prod.mk.injEq]
      exact ⟨hcin.2.1.symm, hcin.2.2.symm⟩
  · have h1 : (allCells.map fun c => (cellItems items c.1 c.2).length) =
        allCells.map fun c => items.countP fun it =>
          decide (it.day = c.1) && decide (it.meal_type = c.2) := by
      refine List.map_eq_map_iff.mpr fun c _ => ?_
      exact (List.countP_eq_length_filter _ _).symm
    rw [h1, sum_countP_exchange]
    have h2 : (items.map fun it => allCells.countP fun c =>
        decide (it.day = c.1) && decide (it.meal_type = c.2)) =
        items.map fun it =>
          if 0 ≤ it.day ∧ it.day ≤ 6 ∧ it.meal_type ∈ MEAL_TYPES
          then 1 else 0 :=
      List.map_eq_map_iff.mpr fun it _ => allCells_countP_pair it.day it.meal_type
    rw [h2, countP_as_sum]
    apply congrArg
    refine List.map_eq_map_iff.mpr fun it _ => ?_
    by_cases h : 0 ≤ it.day ∧ it.day ≤ 6 ∧ it.meal_type ∈ MEAL_TYPES
    · rw [if_pos h, if_pos]
      simp only [Bool.and_eq_true, decide_eq_true_eq]
      exact ⟨⟨h.1, h.2.1⟩, h.2.2⟩
    · rw [if_neg h, if_neg]
      simp only [Bool.and_eq_true, decide_eq_true_eq]
      rintro ⟨⟨h0, h6⟩, hm⟩
      exact h ⟨h0, h6, hm⟩

/-- Witness for C10: a malformed entry (day 9, unknown meal) lands in no
cell, a well-formed dinner entry lands in exactly one, and the 28 cells
hold exactly the 1 well-formed entry. -/
theorem grid_placement_partition_witness :
    (∀ c ∈ allCells,
      ({ id := js "bad", meal_plan_id := js "p", day := 9,
         meal_type := js "brunch", recipe_id := none,
         notes := none } : PlanItem) ∉
        cellItems
          [{ id := js "bad", meal_plan_id := js "p", day := 9,
             meal_type := js "brunch", recipe_id := none, notes := none },
           { id := js "ok", meal_plan_id := js "p", day := 2,
             meal_type := js "dinner", recipe_id := none,
             notes := some (js "stew") }]
          c.1 c.2) ∧
    (allCells.map fun c =>
      (cellItems
          [{ id := js "bad", meal_plan_id := js "p", day := 9,
             meal_type := js "brunch", recipe_id := none, notes := none },
           { id := js "ok", meal_plan_id := js "p", day := 2,
             meal_type := js "dinner", recipe_id := none,
             notes := some (js "stew") }]
          c.1 c.2).length).sum = 1 := by
  constructor
  · exact (grid_placement_partition
        [{ id := js "bad", meal_plan_id := js "p", day := 9,
           meal_type := js "brunch", recipe_id := none, notes := none },
         { id := js "ok", meal_plan_id := js "p", day := 2,
           meal_type := js "dinner", recipe_id := none,
           notes := some (js "stew") }]).1
      _ (by decide) (by decide)
  · rw [(grid_placement_partition
        [{ id := js "bad", meal_plan_id := js "p", day := 9,
           meal_type := js "brunch", recipe_id := none, notes := none },
         { id := js "ok", meal_plan_id := js "p", day := 2,
           meal_type := js "dinner", recipe_id := none,
           notes := some (js "stew") }]).2.2]
    decide

/-! ## Checked-set reset claim (C9) -/

/-- Counterexample to C9 as stated: from a fresh session, check "milk",
then change the week and let its plan load fail (the `catch` at page.tsx
lines 262-264; the early returns in the duplicate variant). The displayed
week — `startOfWeekMonday` of the anchor — has changed, yet the checked
set still holds "milk", so the checked set is not reset whenever the
displayed week changes. -/
theorem checked_not_reset_on_failed_week_change :
    Reachable (step (initState ⟨0, 0⟩) (PageEvent.toggleItem (js "milk"))) ∧
    startOfWeekMonday
        (step (step (initState ⟨0, 0⟩) (PageEvent.toggleItem (js "milk")))
          (PageEvent.changeWeekFailed 1)).anchor ≠
      startOfWeekMonday
        (step (initState ⟨0, 0⟩) (PageEvent.toggleItem (js "milk"))).anchor ∧
    (step (step (initState ⟨0, 0⟩) (PageEvent.toggleItem (js "milk")))
        (PageEvent.changeWeekFailed 1)).checked ≠ [] :=
  ⟨Reachable.step _ _ (Reachable.init ⟨0, 0⟩), by decide, by decide⟩

/-- C9 (amended): in any reachable session state, a week change whose
plan load completes, and every grocery-list recomputation (with or
without recipes), leave the checked set empty whatever was checked
before; a week change whose plan load fails moves the displayed week but
leaves the checked set exactly as it was (only the error message is
set). -/
theorem checked_reset_on_successful_week_change_or_recompute :
    ∀ s : PageState, Reachable s →
      (∀ e : PageEvent, resetsChecked e → (step s e).checked = []) ∧
      ∀ w : Int, (step s (PageEvent.changeWeekFailed w)).checked = s.checked := by
  intro s _
  constructor
  · intro e he
    cases e <;> first
      | rfl
      | exact absurd he (by simp [resetsChecked])
  · intro w
    rfl

/-- Witness for the amended C9: from a fresh session, check "milk"; a
successful week change empties the checked set, a failed one keeps
exactly ["milk"]. -/
theorem checked_reset_on_successful_week_change_witness :
    (step (step (initState ⟨0, 0⟩) (PageEvent.toggleItem (js "milk")))
        (PageEvent.changeWeek 1)).checked = [] ∧
    (step (step (initState ⟨0, 0⟩) (PageEvent.toggleItem (js "milk")))
        (PageEvent.changeWeekFailed 1)).checked = [js "milk"] := by
  constructor
  · exact (checked_reset_on_successful_week_change_or_recompute _
      (Reachable.step _ _ (Reachable.init ⟨0, 0⟩))).1
      (PageEvent.changeWeek 1) trivial
  · rw [(checked_reset_on_successful_week_change_or_recompute _
      (Reachable.step _ _ (Reachable.init ⟨0, 0⟩))).2 1]
    decide

/-- Witness for C1: in `[" Milk ", "milk"]` the first occurrence's
trimmed casing "Milk" is the surviving representative. -/
theorem dedupe_first_occurrence_wins_witness :
    js "Milk" ∈ dedupeIngredients [js " Milk ", js "milk"] :=
  (dedupe_first_occurrence_wins.1 [js " Milk ", js "milk"] (js "Milk")).mpr
    ⟨[], js " Milk ", [js "milk"], rfl, by decide, by decide, by simp⟩

/-- Witness for C6 at a concrete two-recipe collection with duplicate,
blank and differently-cased lines. -/
theorem aggregate_idem_witness :
    aggregate
        ((aggregate
            [⟨js "A", js "Recipe A", some [js "2 eggs", js " Milk "]⟩,
             ⟨js "B", js "Recipe B", some [js "milk", js "", js "Salt"]⟩]).map
          fun l => ⟨js "", js "", some [l]⟩) =
      aggregate
        [⟨js "A", js "Recipe A", some [js "2 eggs", js " Milk "]⟩,
         ⟨js "B", js "Recipe B", some [js "milk", js "", js "Salt"]⟩] :=
  aggregate_idem _
